import Mathlib

/-!
Verification of the document-to-chunk pipeline of `utils/chunking.py`.

The tokenizer `ENC` used by the code is an external library (a fixed BPE
encoding); it is modelled as an explicit `Tokenizer` capability with
`encode`/`decode` functions, and the chunking functions take it as a
parameter.  Python's `str.strip()` and `str.join` on lists of strings are
modelled explicitly at the character-list level (`pyStrip`, `pyJoin`) so
that their interaction with tokenization can be reasoned about.

The main loop of `chunk_sentences` is embedded as a fuel-indexed step
function `chunkLoop`; the fuel needed is proved to be linear in the number
of sentences (the termination claim).  The result list is instrumented:
each produced chunk carries, besides the `Chunk` record built by
`finalize`, the flag saying whether it came from the oversized-sentence
splitter, the list of its constituent sentences, and the number of leading
sentences that were carried over from the previous chunk as overlap.
-/

/-- Model of the external tokenizer (`ENC = tiktoken.get_encoding(...)`):
an encoding of strings into token sequences with a decoder back to text.
The token type is abstract. -/
structure Tokenizer (τ : Type) where
  encode : String → List τ
  decode : List τ → String

/-- `_tok_len(s) = len(ENC.encode(s))`. -/
def _tok_len {τ : Type} (tk : Tokenizer τ) (s : String) : Nat :=
  (tk.encode s).length

/-- Model of Python's `str.rstrip()` on character lists: drop the maximal
run of trailing whitespace characters. -/
def stripRightCh : List Char → List Char
  | [] => []
  | c :: cs =>
    match stripRightCh cs with
    | [] => if c.isWhitespace then [] else [c]
    | r => c :: r

/-- Model of Python's `str.strip()` on character lists. -/
def pyStripCh (l : List Char) : List Char :=
  stripRightCh (l.dropWhile Char.isWhitespace)

/-- Model of Python's `str.strip()`. -/
def pyStrip (s : String) : String :=
  ⟨pyStripCh s.data⟩

/-- Model of Python's `sep.join(list)`. -/
def pyJoin (sep : String) : List String → String
  | [] => ""
  | [t] => t
  | t :: ts => t ++ sep ++ pyJoin sep ts

/-- `Sentence` from `utils/parsers.py`: a text with an optional page number. -/
structure Sentence where
  text : String
  page : Option Int
deriving DecidableEq, Repr

/-- `Chunk` dataclass from `utils/chunking.py`. -/
structure Chunk where
  chunk_number : Nat
  page_number : String
  embedded_text : String
  raw_text : String
deriving DecidableEq, Repr

/-- `_page_range(pages)`: `sorted(set(pages))`, then empty / singleton /
contiguous-run / comma-joined formatting. -/
def _page_range (pages : List Int) : String :=
  let ps := (pages.dedup).insertionSort (· ≤ ·)
  match ps with
  | [] => ""
  | [p] => toString p
  | p :: q :: rest =>
    if List.Chain' (fun a b => a + 1 = b) (p :: q :: rest) then
      toString p ++ "-" ++ toString ((p :: q :: rest).getLast (by simp))
    else pyJoin "," ((p :: q :: rest).map toString)

/-- Window loop of `_split_text_by_tokens`: emit the stripped decoding of
`toks[start:start+maxTokens]`, stop when the window reaches the end,
otherwise advance `start` by `step`.  The recursion is fuel-indexed; the
Python loop advances `start` by `step ≥ 1` each time, so fuel
`toks.length + 1` is always enough (see `splitLoop` facts below). -/
def splitLoop {τ : Type} (tk : Tokenizer τ) (toks : List τ) (maxTokens step : Nat) :
    Nat → Nat → List String
  | _, 0 => []
  | start, fuel + 1 =>
    if start < toks.length then
      let e := min (start + maxTokens) toks.length
      let piece := pyStrip (tk.decode ((toks.drop start).take (e - start)))
      (if piece = "" then [] else [piece]) ++
        (if e = toks.length then [] else splitLoop tk toks maxTokens step (start + step) fuel)
    else []

/-- `_split_text_by_tokens(text, max_tokens, overlap_tokens)`.  The
`overlap_tokens` argument is a natural number here, so Python's
`max(0, overlap_tokens)` is the identity; `step = max_tokens - overlap`
with the fallback `step = max_tokens` when that difference is not
positive. -/
def _split_text_by_tokens {τ : Type} (tk : Tokenizer τ) (text : String)
    (maxTokens overlapTokens : Nat) : List String :=
  let toks := tk.encode text
  if toks.length ≤ maxTokens then [text]
  else
    let step := if maxTokens ≤ overlapTokens then maxTokens else maxTokens - overlapTokens
    splitLoop tk toks maxTokens step 0 (toks.length + 1)

/-- `finalize(current, n)` from `chunk_sentences`: space-join and strip the
texts, format the pages, fall back to the chunk number when no page
information exists, and prefix the file name for the embedded text. -/
def finalize (fileName : String) (current : List Sentence) (n : Nat) : Chunk :=
  let raw := pyStrip (pyJoin " " (current.map (·.text)))
  let pageStr := _page_range (current.filterMap (·.page))
  { chunk_number := n
    page_number := if pageStr = "" then toString n else pageStr
    embedded_text := fileName ++ "\n\n" ++ raw
    raw_text := raw }

/-- Backward walk that builds the overlap carry-forward: iterate over the
reversed just-finalized chunk, always take the first sentence, then keep
taking while the running token total stays within the overlap budget. -/
def overlapAux {τ : Type} (tk : Tokenizer τ) (O : Nat) :
    List Sentence → List Sentence → Nat → List Sentence × Nat
  | [], overlap, overlapToks => (overlap, overlapToks)
  | ss :: rev, overlap, overlapToks =>
    let tt := _tok_len tk ss.text
    if overlap ≠ [] ∧ O < overlapToks + tt then (overlap, overlapToks)
    else overlapAux tk O rev (overlap ++ [ss]) (overlapToks + tt)

/-- The overlap seed computed from a just-finalized chunk `cur`, restored
to original order, together with its token total (before the degeneracy
guard is applied). -/
def computeOverlap {τ : Type} (tk : Tokenizer τ) (O : Nat) (cur : List Sentence) :
    List Sentence × Nat :=
  let p := overlapAux tk O cur.reverse [] 0
  (p.1.reverse, p.2)

/-- Instrumented output element: the produced `Chunk` plus the provenance
information needed to state the specification properties. -/
structure ChunkInfo where
  chunk : Chunk
  fromSplitter : Bool
  sents : List Sentence
  carried : Nat
deriving DecidableEq, Repr

/-- The `for part in parts` loop of the oversized-sentence branch: each
piece becomes its own single-sentence chunk, numbering consecutively. -/
def pieceChunks (fileName : String) (page : Option Int) :
    List String → Nat → List ChunkInfo
  | [], _ => []
  | part :: parts, n =>
    { chunk := finalize fileName [⟨part, page⟩] n
      fromSplitter := true
      sents := [⟨part, page⟩]
      carried := 0 } :: pieceChunks fileName page parts (n + 1)

/-- The main loop of `chunk_sentences`, fuel-indexed.  State: the not yet
consumed sentences `rest` (the input pointer), the accumulator `cur` with
its token count `curToks`, the number `curCarried` of leading sentences of
`cur` that are overlap carried over from the previous chunk, and the next
chunk number.  Returns `none` when the fuel runs out. -/
def chunkLoop {τ : Type} (tk : Tokenizer τ) (fileName : String) (T O : Nat) :
    Nat → List Sentence → List Sentence → Nat → Nat → Nat → Option (List ChunkInfo)
  | 0, _, _, _, _, _ => none
  | fuel + 1, rest, cur, curToks, curCarried, chunkNo =>
    match rest with
    | [] =>
      some (if cur = [] then []
            else [⟨finalize fileName cur chunkNo, false, cur, curCarried⟩])
    | s :: rest2 =>
      if pyStrip s.text = "" then
        chunkLoop tk fileName T O fuel rest2 cur curToks curCarried chunkNo
      else
        let sTok := _tok_len tk (pyStrip s.text)
        if T < sTok then
          if cur = [] then
            Option.map
              (fun l => pieceChunks fileName s.page
                (_split_text_by_tokens tk (pyStrip s.text) T O) chunkNo ++ l)
              (chunkLoop tk fileName T O fuel rest2 cur curToks curCarried
                (chunkNo + (_split_text_by_tokens tk (pyStrip s.text) T O).length))
          else
            Option.map
              (fun l => ⟨finalize fileName cur chunkNo, false, cur, curCarried⟩ ::
                (pieceChunks fileName s.page
                  (_split_text_by_tokens tk (pyStrip s.text) T O) (chunkNo + 1) ++ l))
              (chunkLoop tk fileName T O fuel rest2 [] 0 0
                (chunkNo + 1 + (_split_text_by_tokens tk (pyStrip s.text) T O).length))
        else
          if cur ≠ [] ∧ T < curToks + sTok then
            let ov := (computeOverlap tk O cur).1
            let ovToks := (computeOverlap tk O cur).2
            if ov.length = cur.length ∧ ovToks = curToks then
              Option.map
                (fun l => ⟨finalize fileName cur chunkNo, false, cur, curCarried⟩ :: l)
                (chunkLoop tk fileName T O fuel rest [] 0 0 (chunkNo + 1))
            else
              Option.map
                (fun l => ⟨finalize fileName cur chunkNo, false, cur, curCarried⟩ :: l)
                (chunkLoop tk fileName T O fuel rest ov ovToks ov.length (chunkNo + 1))
          else
            chunkLoop tk fileName T O fuel rest2 (cur ++ [s]) (curToks + sTok)
              curCarried chunkNo

/-- `chunk_sentences` with instrumentation.  Fuel `3 * n + 1` is proved
sufficient below, so the `getD` default is never taken. -/
def chunkSentencesInfo {τ : Type} (tk : Tokenizer τ) (sentences : List Sentence)
    (fileName : String) (T O : Nat) : List ChunkInfo :=
  (chunkLoop tk fileName T O (3 * sentences.length + 1) sentences [] 0 0 1).getD []

/-- `chunk_sentences(sentences, file_name=..., target_tokens=T, overlap_tokens=O)`.
The defaults in the source are `T = 2000`, `O = 200`. -/
def chunk_sentences {τ : Type} (tk : Tokenizer τ) (sentences : List Sentence)
    (fileName : String) (T O : Nat) : List Chunk :=
  (chunkSentencesInfo tk sentences fileName T O).map (·.chunk)

/-- Sum of the (untrimmed) token lengths of a list of sentences. -/
def usum {τ : Type} (tk : Tokenizer τ) (l : List Sentence) : Nat :=
  (l.map (fun s => _tok_len tk s.text)).sum

/-- Potential function bounding the number of remaining loop iterations of
`chunkLoop`: three per unconsumed sentence, one per accumulator element,
and one for an accumulator whose recorded token count is not the plain sum
of its members' token lengths. -/
def phi {τ : Type} (tk : Tokenizer τ) (rest cur : List Sentence) (curToks : Nat) : Nat :=
  3 * rest.length + cur.length + (if curToks = usum tk cur then 0 else 1)

/-- Whitespace word-count tokenizer: a concrete tokenizer instance used to
exhibit satisfiable witnesses (the spec itself suggests substituting a
trivial whitespace tokenizer for the production encoding in tests). -/
def wcAux : Bool → List Char → Nat
  | _, [] => 0
  | inWord, c :: cs =>
    if c.isWhitespace then wcAux false cs
    else (if inWord then 0 else 1) + wcAux true cs

/-- The whitespace word-count tokenizer as a `Tokenizer`. -/
def wordTok : Tokenizer Unit where
  encode s := List.replicate (wcAux false s.data) ()
  decode _ := ""

/-- Character tokenizer: every character is one token; decoding is exact.
Used to exhibit concrete runs of the oversized-sentence splitter. -/
def charTok : Tokenizer Char where
  encode s := s.data
  decode l := ⟨l⟩

/-! ### Facts about the whitespace word-count tokenizer -/

theorem wcAux_append_space (y : List Char) :
    ∀ (x : List Char) (b : Bool), wcAux b (x ++ ' ' :: y) = wcAux b x + wcAux false y := by
  intro x
  induction x with
  | nil => intro b; simp [wcAux]
  | cons c cs ih =>
    intro b
    by_cases hc : c.isWhitespace
    · simp [wcAux, hc, ih]
    · simp [wcAux, hc, ih, Nat.add_assoc]

theorem wcAux_zero_of_stripRightCh_nil :
    ∀ (l : List Char), stripRightCh l = [] → ∀ b, wcAux b l = 0 := by
  intro l
  induction l with
  | nil => intro _ b; rfl
  | cons c cs ih =>
    intro h b
    rw [stripRightCh] at h
    rcases hcs : stripRightCh cs with _ | ⟨r, rs⟩
    · rw [hcs] at h
      by_cases hc : c.isWhitespace
      · simp [wcAux, hc, ih hcs]
      · simp [hc] at h
    · rw [hcs] at h
      simp at h

theorem wcAux_cons (b : Bool) (c : Char) (cs : List Char) :
    wcAux b (c :: cs) =
      if c.isWhitespace then wcAux false cs else (if b then 0 else 1) + wcAux true cs := rfl

theorem wcAux_stripRightCh :
    ∀ (l : List Char) (b : Bool), wcAux b (stripRightCh l) = wcAux b l := by
  intro l
  induction l with
  | nil => intro b; rfl
  | cons c cs ih =>
    intro b
    rw [stripRightCh]
    rcases hcs : stripRightCh cs with _ | ⟨r, rs⟩
    · by_cases hc : c.isWhitespace
      · rw [if_pos hc, wcAux_cons b c cs, if_pos hc,
          wcAux_zero_of_stripRightCh_nil cs hcs false]
        rfl
      · rw [if_neg hc, wcAux_cons b c [], wcAux_cons b c cs, if_neg hc, if_neg hc,
          wcAux_zero_of_stripRightCh_nil cs hcs true]
        rfl
    · rw [wcAux_cons b c (r :: rs), wcAux_cons b c cs, ← hcs]
      simp only [ih]

theorem wcAux_dropWhile_ws :
    ∀ (l : List Char), wcAux false (l.dropWhile Char.isWhitespace) = wcAux false l := by
  intro l
  induction l with
  | nil => rfl
  | cons c cs ih =>
    by_cases hc : c.isWhitespace
    · rw [List.dropWhile_cons_of_pos hc, ih]; simp [wcAux, hc]
    · rw [List.dropWhile_cons_of_neg (by simpa using hc)]

theorem wc_pyStripCh (l : List Char) : wcAux false (pyStripCh l) = wcAux false l := by
  rw [pyStripCh, wcAux_stripRightCh, wcAux_dropWhile_ws]

theorem wordTok_tok_len (s : String) : _tok_len wordTok s = wcAux false s.data := by
  simp [_tok_len, wordTok]

theorem wordTok_strip (s : String) : _tok_len wordTok (pyStrip s) = _tok_len wordTok s := by
  rw [wordTok_tok_len, wordTok_tok_len, pyStrip]
  exact wc_pyStripCh s.data

theorem wordTok_join :
    ∀ (l : List String), wcAux false (pyJoin " " l).data = (l.map (_tok_len wordTok)).sum := by
  intro l
  induction l with
  | nil => rfl
  | cons t ts ih =>
    rcases ts with _ | ⟨u, us⟩
    · simp [pyJoin, wordTok_tok_len]
    · show wcAux false (t ++ " " ++ pyJoin " " (u :: us)).data = _
      rw [String.data_append, String.data_append]
      have hsp : (" " : String).data = [' '] := rfl
      rw [hsp, List.append_assoc, List.singleton_append]
      rw [wcAux_append_space ((pyJoin " " (u :: us)).data) t.data false]
      rw [ih]
      simp [wordTok_tok_len, Nat.add_comm]

theorem wordTok_join_strip (l : List String) :
    _tok_len wordTok (pyStrip (pyJoin " " l)) ≤ (l.map (_tok_len wordTok)).sum := by
  rw [wordTok_strip, wordTok_tok_len, wordTok_join]

/-! ### Facts about token sums -/

theorem usum_nil {τ : Type} (tk : Tokenizer τ) : usum tk [] = 0 := rfl

theorem usum_append {τ : Type} (tk : Tokenizer τ) (a b : List Sentence) :
    usum tk (a ++ b) = usum tk a + usum tk b := by
  simp [usum]

theorem usum_reverse {τ : Type} (tk : Tokenizer τ) (l : List Sentence) :
    usum tk l.reverse = usum tk l := by
  simp [usum, List.sum_reverse]

theorem usum_suffix_le {τ : Type} (tk : Tokenizer τ) {a b : List Sentence}
    (h : a <:+ b) : usum tk a ≤ usum tk b := by
  obtain ⟨pre, rfl⟩ := h
  rw [usum_append]
  omega

theorem usum_cons {τ : Type} (tk : Tokenizer τ) (s : Sentence) (l : List Sentence) :
    usum tk (s :: l) = _tok_len tk s.text + usum tk l := by
  simp [usum]

/-! ### Characterization of the overlap walk -/

theorem overlapAux_spec {τ : Type} (tk : Tokenizer τ) (O : Nat) :
    ∀ (rev acc : List Sentence) (t : Nat),
      ∃ n, n ≤ rev.length ∧
        overlapAux tk O rev acc t = (acc ++ rev.take n, t + usum tk (rev.take n)) ∧
        (acc = [] → rev ≠ [] → 1 ≤ n) ∧
        (∀ i, i < n → (acc ≠ [] ∨ 1 ≤ i) → t + usum tk (rev.take (i + 1)) ≤ O) := by
  intro rev
  induction rev with
  | nil =>
    intro acc t
    refine ⟨0, Nat.le_refl 0, by simp [overlapAux, usum_nil], ?_, ?_⟩
    · intro _ h; exact absurd rfl h
    · intro i hi; omega
  | cons ss rev ih =>
    intro acc t
    rw [overlapAux]
    by_cases hbr : acc ≠ [] ∧ O < t + _tok_len tk ss.text
    · refine ⟨0, Nat.zero_le _, ?_, ?_, ?_⟩
      · rw [if_pos hbr]; simp [usum_nil]
      · intro ha; exact absurd ha hbr.1
      · intro i hi; omega
    · rw [if_neg hbr]
      obtain ⟨n, hn, heq, _, hgreedy⟩ := ih (acc ++ [ss]) (t + _tok_len tk ss.text)
      refine ⟨n + 1, by simpa using Nat.succ_le_succ hn, ?_, ?_, ?_⟩
      · rw [heq]
        rw [Prod.ext_iff]
        constructor
        · simp [List.take_succ_cons, List.append_assoc]
        · simp only [List.take_succ_cons, usum_cons]
          omega
      · intro _ _; omega
      · intro i hi hcond
        cases i with
        | zero =>
          simp only [List.take_succ_cons, List.take_zero, usum_cons, usum_nil]
          rcases hcond with hacc | h1
          · have hle : ¬ O < t + _tok_len tk ss.text := fun hlt => hbr ⟨hacc, hlt⟩
            omega
          · omega
        | succ j =>
          have := hgreedy j (by omega) (Or.inl (by simp))
          simp only [List.take_succ_cons, usum_cons] at this ⊢
          omega

theorem computeOverlap_spec {τ : Type} (tk : Tokenizer τ) (O : Nat) (cur : List Sentence)
    (hne : cur ≠ []) :
    (computeOverlap tk O cur).1 ≠ [] ∧
    (computeOverlap tk O cur).1 <:+ cur ∧
    (computeOverlap tk O cur).2 = usum tk (computeOverlap tk O cur).1 ∧
    (computeOverlap tk O cur).1.length ≤ cur.length ∧
    (2 ≤ (computeOverlap tk O cur).1.length → (computeOverlap tk O cur).2 ≤ O) := by
  obtain ⟨n, hn, heq, hfirst, hgreedy⟩ := overlapAux_spec tk O cur.reverse [] 0
  have hrevne : cur.reverse ≠ [] := by
    simpa using hne
  have hn1 : 1 ≤ n := hfirst rfl hrevne
  have hco : computeOverlap tk O cur =
      ((cur.reverse.take n).reverse, usum tk (cur.reverse.take n)) := by
    rw [computeOverlap, heq]
    simp
  have hlen : (cur.reverse.take n).reverse.length = min n cur.length := by
    simp [List.length_take]
  have hcpos : 0 < cur.length := List.length_pos.mpr hne
  refine ⟨?_, ?_, ?_, ?_, ?_⟩
  · rw [hco]
    apply List.ne_nil_of_length_pos
    rw [hlen]
    omega
  · rw [hco]
    have hpre : cur.reverse.take n <+: cur.reverse := List.take_prefix n cur.reverse
    have := List.reverse_suffix.mpr hpre
    rwa [List.reverse_reverse] at this
  · rw [hco]
    simp [usum_reverse]
  · rw [hco]
    simp only [hlen]
    omega
  · rw [hco]
    simp only [hlen]
    intro h2
    have hn2 : 2 ≤ n := by omega
    have := hgreedy (n - 1) (by omega) (Or.inr (by omega))
    have hsub : n - 1 + 1 = n := by omega
    rw [hsub] at this
    simpa using this

theorem computeOverlap_eq_of_length {τ : Type} (tk : Tokenizer τ) (O : Nat)
    (cur : List Sentence) (hne : cur ≠ [])
    (h : (computeOverlap tk O cur).1.length = cur.length) :
    (computeOverlap tk O cur).1 = cur :=
  ((computeOverlap_spec tk O cur hne).2.1).sublist.eq_of_length h

/-! ### Projections of `finalize` and facts about `pieceChunks` -/

theorem finalize_chunk_number (f : String) (cur : List Sentence) (n : Nat) :
    (finalize f cur n).chunk_number = n := rfl

theorem finalize_raw_text (f : String) (cur : List Sentence) (n : Nat) :
    (finalize f cur n).raw_text = pyStrip (pyJoin " " (cur.map (·.text))) := rfl

theorem pieceChunks_length (f : String) (p : Option Int) :
    ∀ (parts : List String) (n : Nat), (pieceChunks f p parts n).length = parts.length := by
  intro parts
  induction parts with
  | nil => intro n; rfl
  | cons part parts ih => intro n; simp [pieceChunks, ih]

theorem pieceChunks_map_num (f : String) (p : Option Int) :
    ∀ (parts : List String) (n : Nat),
      (pieceChunks f p parts n).map (·.chunk.chunk_number) = List.range' n parts.length := by
  intro parts
  induction parts with
  | nil => intro n; rfl
  | cons part parts ih =>
    intro n
    rw [pieceChunks, List.map_cons, ih, List.length_cons, List.range'_succ,
      finalize_chunk_number]

theorem pieceChunks_fromSplitter (f : String) (p : Option Int) :
    ∀ (parts : List String) (n : Nat) (ci : ChunkInfo),
      ci ∈ pieceChunks f p parts n → ci.fromSplitter = true := by
  intro parts
  induction parts with
  | nil => intro n ci h; simp [pieceChunks] at h
  | cons part parts ih =>
    intro n ci h
    rw [pieceChunks, List.mem_cons] at h
    rcases h with h | h
    · rw [h]
    · exact ih (n + 1) ci h

theorem pieceChunks_rawform (f : String) (p : Option Int) :
    ∀ (parts : List String) (n : Nat) (ci : ChunkInfo),
      ci ∈ pieceChunks f p parts n →
        ci.chunk.raw_text = pyStrip (pyJoin " " (ci.sents.map (·.text))) := by
  intro parts
  induction parts with
  | nil => intro n ci h; simp [pieceChunks] at h
  | cons part parts ih =>
    intro n ci h
    rw [pieceChunks, List.mem_cons] at h
    rcases h with h | h
    · rw [h]
      simp [finalize_raw_text]
    · exact ih (n + 1) ci h

/-! ### Branch equations of `chunkLoop` -/

theorem chunkLoop_nil {τ : Type} (tk : Tokenizer τ) (f : String) (T O fuel : Nat)
    (cur : List Sentence) (t c n : Nat) :
    chunkLoop tk f T O (fuel + 1) [] cur t c n =
      some (if cur = [] then [] else [⟨finalize f cur n, false, cur, c⟩]) := rfl

theorem chunkLoop_skip {τ : Type} (tk : Tokenizer τ) (f : String) (T O fuel : Nat)
    (s : Sentence) (rest2 cur : List Sentence) (t c n : Nat)
    (h1 : pyStrip s.text = "") :
    chunkLoop tk f T O (fuel + 1) (s :: rest2) cur t c n =
      chunkLoop tk f T O fuel rest2 cur t c n := by
  simp [chunkLoop, h1]

theorem chunkLoop_big_nilcur {τ : Type} (tk : Tokenizer τ) (f : String) (T O fuel : Nat)
    (s : Sentence) (rest2 : List Sentence) (t c n : Nat)
    (h1 : ¬ pyStrip s.text = "") (h2 : T < _tok_len tk (pyStrip s.text)) :
    chunkLoop tk f T O (fuel + 1) (s :: rest2) [] t c n =
      Option.map
        (fun l => pieceChunks f s.page (_split_text_by_tokens tk (pyStrip s.text) T O) n ++ l)
        (chunkLoop tk f T O fuel rest2 [] t c
          (n + (_split_text_by_tokens tk (pyStrip s.text) T O).length)) := by
  simp [chunkLoop, h1, h2]

theorem chunkLoop_big_conscur {τ : Type} (tk : Tokenizer τ) (f : String) (T O fuel : Nat)
    (s : Sentence) (rest2 cur : List Sentence) (t c n : Nat)
    (h1 : ¬ pyStrip s.text = "") (h2 : T < _tok_len tk (pyStrip s.text))
    (h3 : cur ≠ []) :
    chunkLoop tk f T O (fuel + 1) (s :: rest2) cur t c n =
      Option.map
        (fun l => ⟨finalize f cur n, false, cur, c⟩ ::
          (pieceChunks f s.page (_split_text_by_tokens tk (pyStrip s.text) T O) (n + 1) ++ l))
        (chunkLoop tk f T O fuel rest2 [] 0 0
          (n + 1 + (_split_text_by_tokens tk (pyStrip s.text) T O).length)) := by
  simp [chunkLoop, h1, h2, h3]

theorem chunkLoop_overflow_guard {τ : Type} (tk : Tokenizer τ) (f : String) (T O fuel : Nat)
    (s : Sentence) (rest2 cur : List Sentence) (t c n : Nat)
    (h1 : ¬ pyStrip s.text = "") (h2 : ¬ T < _tok_len tk (pyStrip s.text))
    (h3 : cur ≠ []) (h4 : T < t + _tok_len tk (pyStrip s.text))
    (hg : (computeOverlap tk O cur).1.length = cur.length ∧ (computeOverlap tk O cur).2 = t) :
    chunkLoop tk f T O (fuel + 1) (s :: rest2) cur t c n =
      Option.map (fun l => ⟨finalize f cur n, false, cur, c⟩ :: l)
        (chunkLoop tk f T O fuel (s :: rest2) [] 0 0 (n + 1)) := by
  simp [chunkLoop, h1, h2, h3, h4, hg.1, hg.2]

theorem chunkLoop_overflow_noguard {τ : Type} (tk : Tokenizer τ) (f : String) (T O fuel : Nat)
    (s : Sentence) (rest2 cur : List Sentence) (t c n : Nat)
    (h1 : ¬ pyStrip s.text = "") (h2 : ¬ T < _tok_len tk (pyStrip s.text))
    (h3 : cur ≠ []) (h4 : T < t + _tok_len tk (pyStrip s.text))
    (hg : ¬ ((computeOverlap tk O cur).1.length = cur.length ∧
      (computeOverlap tk O cur).2 = t)) :
    chunkLoop tk f T O (fuel + 1) (s :: rest2) cur t c n =
      Option.map (fun l => ⟨finalize f cur n, false, cur, c⟩ :: l)
        (chunkLoop tk f T O fuel (s :: rest2) (computeOverlap tk O cur).1
          (computeOverlap tk O cur).2 (computeOverlap tk O cur).1.length (n + 1)) := by
  simp only [chunkLoop]
  rw [if_neg h1, if_neg h2, if_pos ⟨h3, h4⟩, if_neg hg]

theorem chunkLoop_append {τ : Type} (tk : Tokenizer τ) (f : String) (T O fuel : Nat)
    (s : Sentence) (rest2 cur : List Sentence) (t c n : Nat)
    (h1 : ¬ pyStrip s.text = "") (h2 : ¬ T < _tok_len tk (pyStrip s.text))
    (h4 : ¬ (cur ≠ [] ∧ T < t + _tok_len tk (pyStrip s.text))) :
    chunkLoop tk f T O (fuel + 1) (s :: rest2) cur t c n =
      chunkLoop tk f T O fuel rest2 (cur ++ [s]) (t + _tok_len tk (pyStrip s.text)) c n := by
  simp only [chunkLoop]
  rw [if_neg h1, if_neg h2, if_neg h4]

theorem optionIsSome_map {α β : Type} (g : α → β) (x : Option α) :
    (Option.map g x).isSome = x.isSome := by
  cases x <;> rfl

/-! ### Fuel sufficiency: the loop terminates in at most `phi` steps -/

theorem chunkLoop_isSome {τ : Type} (tk : Tokenizer τ) (f : String) (T O : Nat) :
    ∀ (fuel : Nat) (rest cur : List Sentence) (t c n : Nat),
      phi tk rest cur t < fuel →
      (chunkLoop tk f T O fuel rest cur t c n).isSome := by
  intro fuel
  induction fuel with
  | zero => intro rest cur t c n h; exact absurd h (by omega)
  | succ fuel ih =>
    intro rest cur t c n hphi
    match rest with
    | [] => rw [chunkLoop_nil]; rfl
    | s :: rest2 =>
      by_cases h1 : pyStrip s.text = ""
      · rw [chunkLoop_skip tk f T O fuel s rest2 cur t c n h1]
        apply ih
        simp only [phi, List.length_cons] at hphi ⊢
        omega
      · by_cases h2 : T < _tok_len tk (pyStrip s.text)
        · by_cases hcur : cur = []
          · subst hcur
            rw [chunkLoop_big_nilcur tk f T O fuel s rest2 t c n h1 h2]
            rw [optionIsSome_map]
            apply ih
            simp only [phi, List.length_cons] at hphi ⊢
            omega
          · rw [chunkLoop_big_conscur tk f T O fuel s rest2 cur t c n h1 h2 hcur]
            rw [optionIsSome_map]
            apply ih
            have hfl : (if (0 : Nat) = usum tk [] then 0 else 1) = 0 := by
              simp [usum_nil]
            simp only [phi, List.length_cons, List.length_nil, hfl] at hphi ⊢
            omega
        · by_cases h4 : T < t + _tok_len tk (pyStrip s.text)
          · have hclen : 0 < cur.length ∨ cur = [] := by
              rcases cur with _ | _
              · exact Or.inr rfl
              · exact Or.inl (by simp)
            rcases hclen with hclen | hcnil
            · have hcur : cur ≠ [] := List.ne_nil_of_length_pos hclen
              by_cases hg : (computeOverlap tk O cur).1.length = cur.length ∧
                  (computeOverlap tk O cur).2 = t
              · rw [chunkLoop_overflow_guard tk f T O fuel s rest2 cur t c n h1 h2 hcur h4 hg]
                rw [optionIsSome_map]
                apply ih
                have hfl : (if (0 : Nat) = usum tk [] then 0 else 1) = 0 := by
                  simp [usum_nil]
                simp only [phi, List.length_nil, hfl] at hphi ⊢
                have hfl2 : (0 : Nat) ≤ if t = usum tk cur then 0 else 1 := Nat.zero_le _
                omega
              · rw [chunkLoop_overflow_noguard tk f T O fuel s rest2 cur t c n h1 h2 hcur h4 hg]
                rw [optionIsSome_map]
                apply ih
                obtain ⟨hone, hsuf, htoks, hlenle, _⟩ := computeOverlap_spec tk O cur hcur
                have hfl : (if (computeOverlap tk O cur).2 =
                    usum tk (computeOverlap tk O cur).1 then 0 else 1) = 0 := if_pos htoks
                by_cases hlen : (computeOverlap tk O cur).1.length = cur.length
                · have hov : (computeOverlap tk O cur).1 = cur :=
                    computeOverlap_eq_of_length tk O cur hcur hlen
                  have hne2 : (computeOverlap tk O cur).2 ≠ t := fun hh => hg ⟨hlen, hh⟩
                  have htne : ¬ (t = usum tk cur) := by
                    rw [hov] at htoks
                    intro hh
                    exact hne2 (by rw [htoks, hh])
                  have hfl2 : (if t = usum tk cur then 0 else 1) = 1 := if_neg htne
                  simp only [phi, hfl, hfl2, hlen] at hphi ⊢
                  omega
                · have hlt : (computeOverlap tk O cur).1.length < cur.length := by
                    omega
                  have hfl2 : (0 : Nat) ≤ if t = usum tk cur then 0 else 1 := Nat.zero_le _
                  simp only [phi, hfl] at hphi ⊢
                  omega
            · subst hcnil
              have h4x : ¬ (([] : List Sentence) ≠ [] ∧
                  T < t + _tok_len tk (pyStrip s.text)) := by
                intro hh
                exact hh.1 rfl
              rw [chunkLoop_append tk f T O fuel s rest2 [] t c n h1 h2 h4x]
              apply ih
              have hfl2 : (if t + _tok_len tk (pyStrip s.text) =
                  usum tk ([] ++ [s]) then 0 else 1) ≤ 1 := by
                split
                · omega
                · omega
              simp only [phi, List.length_cons, List.length_append, List.length_nil] at hphi ⊢
              omega
          · have h4x : ¬ (cur ≠ [] ∧ T < t + _tok_len tk (pyStrip s.text)) := by
              intro hh
              exact h4 hh.2
            rw [chunkLoop_append tk f T O fuel s rest2 cur t c n h1 h2 h4x]
            apply ih
            have hfl2 : (if t + _tok_len tk (pyStrip s.text) =
                usum tk (cur ++ [s]) then 0 else 1) ≤ 1 := by
              split
              · omega
              · omega
            have hfl3 : (0 : Nat) ≤ if t = usum tk cur then 0 else 1 := Nat.zero_le _
            simp only [phi, List.length_cons, List.length_append, List.length_nil] at hphi ⊢
            omega

/-! ### Chunk numbering invariant -/

theorem chunkLoop_numbers {τ : Type} (tk : Tokenizer τ) (f : String) (T O : Nat) :
    ∀ (fuel : Nat) (rest cur : List Sentence) (t c n : Nat) (l : List ChunkInfo),
      chunkLoop tk f T O fuel rest cur t c n = some l →
      l.map (·.chunk.chunk_number) = List.range' n l.length := by
  intro fuel
  induction fuel with
  | zero => intro rest cur t c n l h; exact absurd h (by simp [chunkLoop])
  | succ fuel ih =>
    intro rest cur t c n l h
    match rest with
    | [] =>
      rw [chunkLoop_nil] at h
      rcases Option.some_inj.mp h with rfl
      by_cases hcur : cur = []
      · rw [if_pos hcur]; rfl
      · rw [if_neg hcur]; simp [finalize_chunk_number]
    | s :: rest2 =>
      by_cases h1 : pyStrip s.text = ""
      · rw [chunkLoop_skip tk f T O fuel s rest2 cur t c n h1] at h
        exact ih rest2 cur t c n l h
      · by_cases h2 : T < _tok_len tk (pyStrip s.text)
        · by_cases hcur : cur = []
          · subst hcur
            rw [chunkLoop_big_nilcur tk f T O fuel s rest2 t c n h1 h2] at h
            obtain ⟨l2, hl2, rfl⟩ := Option.map_eq_some'.mp h
            have hrec := ih rest2 [] t c _ l2 hl2
            rw [List.map_append, pieceChunks_map_num, hrec, List.range'_append_1,
              List.length_append, pieceChunks_length]
            exact congrArg (List.range' n) (by omega)
          · rw [chunkLoop_big_conscur tk f T O fuel s rest2 cur t c n h1 h2 hcur] at h
            obtain ⟨l2, hl2, rfl⟩ := Option.map_eq_some'.mp h
            have hrec := ih rest2 [] 0 0 _ l2 hl2
            simp only [List.map_cons, List.map_append, pieceChunks_map_num, hrec,
              finalize_chunk_number, List.length_cons, List.length_append,
              pieceChunks_length, List.range'_append_1]
            rw [List.range'_succ]
            apply congrArg
            exact congrArg (List.range' (n + 1)) (by omega)
        · by_cases h4 : cur ≠ [] ∧ T < t + _tok_len tk (pyStrip s.text)
          · by_cases hg : (computeOverlap tk O cur).1.length = cur.length ∧
                (computeOverlap tk O cur).2 = t
            · rw [chunkLoop_overflow_guard tk f T O fuel s rest2 cur t c n h1 h2 h4.1 h4.2 hg]
                at h
              obtain ⟨l2, hl2, rfl⟩ := Option.map_eq_some'.mp h
              have hrec := ih (s :: rest2) [] 0 0 _ l2 hl2
              rw [List.map_cons, hrec, finalize_chunk_number, List.length_cons,
                List.range'_succ]
            · rw [chunkLoop_overflow_noguard tk f T O fuel s rest2 cur t c n h1 h2 h4.1 h4.2 hg]
                at h
              obtain ⟨l2, hl2, rfl⟩ := Option.map_eq_some'.mp h
              have hrec := ih (s :: rest2) _ _ _ _ l2 hl2
              rw [List.map_cons, hrec, finalize_chunk_number, List.length_cons,
                List.range'_succ]
          · rw [chunkLoop_append tk f T O fuel s rest2 cur t c n h1 h2 h4] at h
            exact ih rest2 _ _ c n l h

/-! ### Token-budget invariant -/

theorem chunkLoop_budget {τ : Type} (tk : Tokenizer τ) (f : String) (T O : Nat)
    (Htrim : ∀ u : String, _tok_len tk (pyStrip u) = _tok_len tk u) :
    ∀ (fuel : Nat) (rest cur : List Sentence) (t c n : Nat) (l : List ChunkInfo),
      chunkLoop tk f T O fuel rest cur t c n = some l →
      t = usum tk cur → t ≤ T →
      ∀ ci ∈ l, ci.fromSplitter = false → usum tk ci.sents ≤ T := by
  intro fuel
  induction fuel with
  | zero => intro rest cur t c n l h; exact absurd h (by simp [chunkLoop])
  | succ fuel ih =>
    intro rest cur t c n l h hinv hle ci hmem hflag
    match rest with
    | [] =>
      rw [chunkLoop_nil] at h
      rcases Option.some_inj.mp h with rfl
      by_cases hcur : cur = []
      · rw [if_pos hcur] at hmem
        simp at hmem
      · rw [if_neg hcur] at hmem
        rcases List.mem_singleton.mp hmem with rfl
        simpa using hinv ▸ hle
    | s :: rest2 =>
      by_cases h1 : pyStrip s.text = ""
      · rw [chunkLoop_skip tk f T O fuel s rest2 cur t c n h1] at h
        exact ih rest2 cur t c n l h hinv hle ci hmem hflag
      · by_cases h2 : T < _tok_len tk (pyStrip s.text)
        · by_cases hcur : cur = []
          · subst hcur
            rw [chunkLoop_big_nilcur tk f T O fuel s rest2 t c n h1 h2] at h
            obtain ⟨l2, hl2, rfl⟩ := Option.map_eq_some'.mp h
            rcases List.mem_append.mp hmem with hm | hm
            · rw [pieceChunks_fromSplitter f s.page _ _ ci hm] at hflag
              exact absurd hflag (by simp)
            · exact ih rest2 [] t c _ l2 hl2 hinv hle ci hm hflag
          · rw [chunkLoop_big_conscur tk f T O fuel s rest2 cur t c n h1 h2 hcur] at h
            obtain ⟨l2, hl2, rfl⟩ := Option.map_eq_some'.mp h
            rcases List.mem_cons.mp hmem with rfl | hm
            · simpa using hinv ▸ hle
            · rcases List.mem_append.mp hm with hm2 | hm2
              · rw [pieceChunks_fromSplitter f s.page _ _ ci hm2] at hflag
                exact absurd hflag (by simp)
              · exact ih rest2 [] 0 0 _ l2 hl2 (usum_nil tk).symm (Nat.zero_le T) ci hm2 hflag
        · by_cases h4 : cur ≠ [] ∧ T < t + _tok_len tk (pyStrip s.text)
          · by_cases hg : (computeOverlap tk O cur).1.length = cur.length ∧
                (computeOverlap tk O cur).2 = t
            · rw [chunkLoop_overflow_guard tk f T O fuel s rest2 cur t c n h1 h2 h4.1 h4.2 hg]
                at h
              obtain ⟨l2, hl2, rfl⟩ := Option.map_eq_some'.mp h
              rcases List.mem_cons.mp hmem with rfl | hm
              · simpa using hinv ▸ hle
              · exact ih (s :: rest2) [] 0 0 _ l2 hl2 (usum_nil tk).symm (Nat.zero_le T)
                  ci hm hflag
            · rw [chunkLoop_overflow_noguard tk f T O fuel s rest2 cur t c n h1 h2 h4.1 h4.2 hg]
                at h
              obtain ⟨l2, hl2, rfl⟩ := Option.map_eq_some'.mp h
              rcases List.mem_cons.mp hmem with rfl | hm
              · simpa using hinv ▸ hle
              · obtain ⟨_, hsuf, htoks, _, _⟩ := computeOverlap_spec tk O cur h4.1
                have hovle : (computeOverlap tk O cur).2 ≤ T := by
                  rw [htoks]
                  calc usum tk (computeOverlap tk O cur).1 ≤ usum tk cur :=
                        usum_suffix_le tk hsuf
                    _ = t := hinv.symm
                    _ ≤ T := hle
                exact ih (s :: rest2) _ _ _ _ l2 hl2 htoks hovle ci hm hflag
          · rw [chunkLoop_append tk f T O fuel s rest2 cur t c n h1 h2 h4] at h
            have hinv2 : t + _tok_len tk (pyStrip s.text) = usum tk (cur ++ [s]) := by
              rw [usum_append, usum_cons, usum_nil, Htrim s.text, hinv]
              omega
            have hle2 : t + _tok_len tk (pyStrip s.text) ≤ T := by
              by_cases hcur : cur = []
              · subst hcur
                rw [usum_nil] at hinv
                omega
              · have hnlt : ¬ T < t + _tok_len tk (pyStrip s.text) := fun hh => h4 ⟨hcur, hh⟩
                omega
            exact ih rest2 _ _ c n l h hinv2 hle2 ci hmem hflag

/-! ### Shape of every produced chunk -/

theorem chunkLoop_rawform {τ : Type} (tk : Tokenizer τ) (f : String) (T O : Nat) :
    ∀ (fuel : Nat) (rest cur : List Sentence) (t c n : Nat) (l : List ChunkInfo),
      chunkLoop tk f T O fuel rest cur t c n = some l →
      ∀ ci ∈ l, ci.chunk.raw_text = pyStrip (pyJoin " " (ci.sents.map (·.text))) := by
  intro fuel
  induction fuel with
  | zero => intro rest cur t c n l h; exact absurd h (by simp [chunkLoop])
  | succ fuel ih =>
    intro rest cur t c n l h ci hmem
    match rest with
    | [] =>
      rw [chunkLoop_nil] at h
      rcases Option.some_inj.mp h with rfl
      by_cases hcur : cur = []
      · rw [if_pos hcur] at hmem
        simp at hmem
      · rw [if_neg hcur] at hmem
        rcases List.mem_singleton.mp hmem with rfl
        simp [finalize_raw_text]
    | s :: rest2 =>
      by_cases h1 : pyStrip s.text = ""
      · rw [chunkLoop_skip tk f T O fuel s rest2 cur t c n h1] at h
        exact ih rest2 cur t c n l h ci hmem
      · by_cases h2 : T < _tok_len tk (pyStrip s.text)
        · by_cases hcur : cur = []
          · subst hcur
            rw [chunkLoop_big_nilcur tk f T O fuel s rest2 t c n h1 h2] at h
            obtain ⟨l2, hl2, rfl⟩ := Option.map_eq_some'.mp h
            rcases List.mem_append.mp hmem with hm | hm
            · exact pieceChunks_rawform f s.page _ _ ci hm
            · exact ih rest2 [] t c _ l2 hl2 ci hm
          · rw [chunkLoop_big_conscur tk f T O fuel s rest2 cur t c n h1 h2 hcur] at h
            obtain ⟨l2, hl2, rfl⟩ := Option.map_eq_some'.mp h
            rcases List.mem_cons.mp hmem with rfl | hm
            · simp [finalize_raw_text]
            · rcases List.mem_append.mp hm with hm2 | hm2
              · exact pieceChunks_rawform f s.page _ _ ci hm2
              · exact ih rest2 [] 0 0 _ l2 hl2 ci hm2
        · by_cases h4 : cur ≠ [] ∧ T < t + _tok_len tk (pyStrip s.text)
          · by_cases hg : (computeOverlap tk O cur).1.length = cur.length ∧
                (computeOverlap tk O cur).2 = t
            · rw [chunkLoop_overflow_guard tk f T O fuel s rest2 cur t c n h1 h2 h4.1 h4.2 hg]
                at h
              obtain ⟨l2, hl2, rfl⟩ := Option.map_eq_some'.mp h
              rcases List.mem_cons.mp hmem with rfl | hm
              · simp [finalize_raw_text]
              · exact ih (s :: rest2) [] 0 0 _ l2 hl2 ci hm
            · rw [chunkLoop_overflow_noguard tk f T O fuel s rest2 cur t c n h1 h2 h4.1 h4.2 hg]
                at h
              obtain ⟨l2, hl2, rfl⟩ := Option.map_eq_some'.mp h
              rcases List.mem_cons.mp hmem with rfl | hm
              · simp [finalize_raw_text]
              · exact ih (s :: rest2) _ _ _ _ l2 hl2 ci hm
          · rw [chunkLoop_append tk f T O fuel s rest2 cur t c n h1 h2 h4] at h
            exact ih rest2 _ _ c n l h ci hmem

/-! ### Coverage: dropping each chunk's carried prefix reconstructs the input -/

theorem chunkLoop_coverage {τ : Type} (tk : Tokenizer τ) (f : String) (T O : Nat) :
    ∀ (fuel : Nat) (rest cur : List Sentence) (t c n : Nat) (l : List ChunkInfo),
      chunkLoop tk f T O fuel rest cur t c n = some l →
      c ≤ cur.length →
      (∀ s ∈ rest, _tok_len tk (pyStrip s.text) ≤ T) →
      l.flatMap (fun ci => ci.sents.drop ci.carried) =
        cur.drop c ++ rest.filter (fun s => !(pyStrip s.text == "")) := by
  intro fuel
  induction fuel with
  | zero => intro rest cur t c n l h; exact absurd h (by simp [chunkLoop])
  | succ fuel ih =>
    intro rest cur t c n l h hc hsize
    match rest with
    | [] =>
      rw [chunkLoop_nil] at h
      rcases Option.some_inj.mp h with rfl
      by_cases hcur : cur = []
      · subst hcur
        rw [if_pos rfl]
        simp
      · rw [if_neg hcur]
        simp
    | s :: rest2 =>
      have hsz2 : ∀ u ∈ rest2, _tok_len tk (pyStrip u.text) ≤ T := by
        intro u hu
        exact hsize u (List.mem_cons_of_mem s hu)
      by_cases h1 : pyStrip s.text = ""
      · rw [chunkLoop_skip tk f T O fuel s rest2 cur t c n h1] at h
        rw [ih rest2 cur t c n l h hc hsz2]
        simp [List.filter_cons, h1]
      · by_cases h2 : T < _tok_len tk (pyStrip s.text)
        · exact absurd (hsize s (List.mem_cons_self s rest2)) (by omega)
        · by_cases h4 : cur ≠ [] ∧ T < t + _tok_len tk (pyStrip s.text)
          · by_cases hg : (computeOverlap tk O cur).1.length = cur.length ∧
                (computeOverlap tk O cur).2 = t
            · rw [chunkLoop_overflow_guard tk f T O fuel s rest2 cur t c n h1 h2 h4.1 h4.2 hg]
                at h
              obtain ⟨l2, hl2, rfl⟩ := Option.map_eq_some'.mp h
              have hrec := ih (s :: rest2) [] 0 0 _ l2 hl2 (by simp) hsize
              rw [List.flatMap_cons, hrec]
              simp
            · rw [chunkLoop_overflow_noguard tk f T O fuel s rest2 cur t c n h1 h2 h4.1 h4.2 hg]
                at h
              obtain ⟨l2, hl2, rfl⟩ := Option.map_eq_some'.mp h
              have hrec := ih (s :: rest2) _ _ _ _ l2 hl2 (Nat.le_refl _) hsize
              rw [List.flatMap_cons, hrec, List.drop_length]
              simp
          · rw [chunkLoop_append tk f T O fuel s rest2 cur t c n h1 h2 h4] at h
            have hrec := ih rest2 _ _ c n l h
              (by rw [List.length_append]; omega) hsz2
            rw [hrec, List.drop_append_of_le_length hc]
            simp [List.filter_cons, h1]

/-! ### Top-level bridge -/

theorem chunkSentencesInfo_eq {τ : Type} (tk : Tokenizer τ) (sentences : List Sentence)
    (f : String) (T O : Nat) :
    chunkLoop tk f T O (3 * sentences.length + 1) sentences [] 0 0 1 =
      some (chunkSentencesInfo tk sentences f T O) := by
  have hphi : phi tk sentences [] 0 < 3 * sentences.length + 1 := by
    have : phi tk sentences [] 0 = 3 * sentences.length := by
      simp [phi, usum_nil]
    omega
  have h := chunkLoop_isSome tk f T O (3 * sentences.length + 1) sentences [] 0 0 1 hphi
  obtain ⟨l, hl⟩ := Option.isSome_iff_exists.mp h
  rw [hl, chunkSentencesInfo, hl]
  rfl

/-! ### Facts about the oversized-sentence splitter -/

theorem splitLoop_mem {τ : Type} (tk : Tokenizer τ) (toks : List τ) (maxTokens step : Nat) :
    ∀ (fuel start : Nat) (p : String), p ∈ splitLoop tk toks maxTokens step start fuel →
      ∃ w : List τ, w.length ≤ maxTokens ∧ p = pyStrip (tk.decode w) := by
  intro fuel
  induction fuel with
  | zero => intro start p h; exact absurd h (by simp [splitLoop])
  | succ fuel ih =>
    intro start p h
    rw [splitLoop] at h
    by_cases hs : start < toks.length
    · rw [if_pos hs] at h
      rcases List.mem_append.mp h with hm | hm
      · by_cases hp : pyStrip (tk.decode ((toks.drop start).take
            (min (start + maxTokens) toks.length - start))) = ""
        · rw [if_pos hp] at hm
          simp at hm
        · rw [if_neg hp] at hm
          rcases List.mem_singleton.mp hm with rfl
          refine ⟨(toks.drop start).take (min (start + maxTokens) toks.length - start),
            ?_, rfl⟩
          rw [List.length_take]
          omega
      · by_cases he : min (start + maxTokens) toks.length = toks.length
        · rw [if_pos he] at hm
          simp at hm
        · rw [if_neg he] at hm
          exact ih (start + step) p hm
    · rw [if_neg hs] at h
      simp at h

theorem split_text_piece_le {τ : Type} (tk : Tokenizer τ) (text : String)
    (maxTokens overlapTokens : Nat)
    (Hrt : ∀ w : List τ, _tok_len tk (pyStrip (tk.decode w)) ≤ w.length) :
    ∀ p ∈ _split_text_by_tokens tk text maxTokens overlapTokens,
      _tok_len tk p ≤ max maxTokens (_tok_len tk text) := by
  intro p hp
  rw [_split_text_by_tokens] at hp
  by_cases hle : (tk.encode text).length ≤ maxTokens
  · rw [if_pos hle] at hp
    rcases List.mem_singleton.mp hp with rfl
    rw [_tok_len]
    omega
  · rw [if_neg hle] at hp
    obtain ⟨w, hw, rfl⟩ := splitLoop_mem tk (tk.encode text) maxTokens _ _ 0 p hp
    have := Hrt w
    omega

theorem split_text_5000 {τ : Type} (tk : Tokenizer τ) (text : String)
    (h : (tk.encode text).length = 5000)
    (hp1 : pyStrip (tk.decode ((tk.encode text).take 2000)) ≠ "")
    (hp2 : pyStrip (tk.decode (((tk.encode text).drop 1800).take 2000)) ≠ "")
    (hp3 : pyStrip (tk.decode (((tk.encode text).drop 3600).take 1400)) ≠ "") :
    _split_text_by_tokens tk text 2000 200 =
      [pyStrip (tk.decode ((tk.encode text).take 2000)),
       pyStrip (tk.decode (((tk.encode text).drop 1800).take 2000)),
       pyStrip (tk.decode (((tk.encode text).drop 3600).take 1400))] := by
  have hT : ¬ (tk.encode text).length ≤ 2000 := by rw [h]; norm_num
  simp only [_split_text_by_tokens]
  rw [if_neg hT, if_neg (by norm_num : ¬ (2000 : Nat) ≤ 200), h]
  rw [splitLoop]
  rw [if_pos (by rw [h]; norm_num : (0 : Nat) < (tk.encode text).length)]
  simp only [h]
  norm_num
  rw [if_neg hp1]
  rw [show (5000 : Nat) = 4999 + 1 from rfl, splitLoop]
  rw [if_pos (by rw [h]; norm_num : (1800 : Nat) < (tk.encode text).length)]
  simp only [h]
  norm_num
  rw [if_neg hp2]
  rw [show (4999 : Nat) = 4998 + 1 from rfl, splitLoop]
  rw [if_pos (by rw [h]; norm_num : (3600 : Nat) < (tk.encode text).length)]
  simp only [h]
  norm_num
  exact hp3

/-! ### Facts about the character tokenizer -/

theorem stripRightCh_length_le : ∀ (l : List Char), (stripRightCh l).length ≤ l.length := by
  intro l
  induction l with
  | nil => exact Nat.le_refl 0
  | cons c cs ih =>
    rw [stripRightCh]
    rcases hcs : stripRightCh cs with _ | ⟨r, rs⟩
    · by_cases hc : c.isWhitespace
      · rw [if_pos hc]
        simp
      · rw [if_neg hc]
        simp
    · rw [hcs] at ih
      simpa using ih

theorem pyStripCh_length_le (l : List Char) : (pyStripCh l).length ≤ l.length := by
  rw [pyStripCh]
  calc (stripRightCh (l.dropWhile Char.isWhitespace)).length
      ≤ (l.dropWhile Char.isWhitespace).length := stripRightCh_length_le _
    _ ≤ l.length := (List.dropWhile_sublist Char.isWhitespace (l := l)).length_le

theorem charTok_roundtrip (w : List Char) :
    _tok_len charTok (pyStrip (charTok.decode w)) ≤ w.length :=
  pyStripCh_length_le w

theorem stripRightCh_replicate (c : Char) (hc : ¬ c.isWhitespace) :
    ∀ n, stripRightCh (List.replicate n c) = List.replicate n c := by
  intro n
  induction n with
  | zero => rfl
  | succ n ih =>
    rw [List.replicate_succ, stripRightCh, ih]
    cases n with
    | zero => simp [hc]
    | succ m => rw [List.replicate_succ]

theorem pyStripCh_replicate (c : Char) (hc : ¬ c.isWhitespace) (n : Nat) :
    pyStripCh (List.replicate n c) = List.replicate n c := by
  rw [pyStripCh]
  cases n with
  | zero => rfl
  | succ m =>
    rw [List.replicate_succ, List.dropWhile_cons_of_neg (by simpa using hc),
      ← List.replicate_succ, stripRightCh_replicate c hc]

theorem pyStrip_replicate_ne_empty (c : Char) (hc : ¬ c.isWhitespace) (n : Nat)
    (hn : 0 < n) : pyStrip ⟨List.replicate n c⟩ ≠ "" := by
  intro hEq
  have hdata : pyStripCh (List.replicate n c) = ([] : List Char) :=
    congrArg String.data hEq
  rw [pyStripCh_replicate c hc n] at hdata
  have := congrArg List.length hdata
  simp at this
  omega

/-! ### Sorted-set normal form for the page-range formatter -/

theorem sortedSet_eq (pages ps : List Int) (hs : List.Sorted (· < ·) ps)
    (hm : ∀ x, x ∈ ps ↔ x ∈ pages) :
    (pages.dedup).insertionSort (· ≤ ·) = ps := by
  have h1 : List.Perm ((pages.dedup).insertionSort (· ≤ ·)) pages.dedup :=
    List.perm_insertionSort _ _
  have hnd : pages.dedup.Nodup := List.nodup_dedup pages
  have hnd2 : ((pages.dedup).insertionSort (· ≤ ·)).Nodup := h1.nodup_iff.mpr hnd
  have hndps : ps.Nodup := hs.nodup
  have hperm : List.Perm ((pages.dedup).insertionSort (· ≤ ·)) ps := by
    apply (List.perm_ext_iff_of_nodup hnd2 hndps).mpr
    intro x
    rw [h1.mem_iff, List.mem_dedup, ← hm x]
  exact List.eq_of_perm_of_sorted hperm (List.sorted_insertionSort _ _) hs.le_of_lt

/-! ## Claim theorems -/

/-- C1: for every sentence sequence, target budget `T > 0` and overlap
budget `O ≥ 0` (a `Nat` here), every chunk returned by `chunk_sentences`
that was not produced by the oversized-sentence splitter has token length
of its `raw_text` at most `T`.  The tokenizer is the external encoding,
abstracted as `tk`; the two hypotheses record the properties of the
encoding the code relies on: token length is insensitive to stripping, and
the token length of a stripped space-join is at most the sum of the parts'
token lengths. -/
theorem claim1_budget {τ : Type} (tk : Tokenizer τ)
    (Htrim : ∀ u : String, _tok_len tk (pyStrip u) = _tok_len tk u)
    (Hjoin : ∀ l : List String,
      _tok_len tk (pyStrip (pyJoin " " l)) ≤ (l.map (_tok_len tk)).sum)
    (sentences : List Sentence) (fileName : String) (T O : Nat) (_hT : 0 < T)
    (ci : ChunkInfo) (hci : ci ∈ chunkSentencesInfo tk sentences fileName T O)
    (hflag : ci.fromSplitter = false) :
    _tok_len tk ci.chunk.raw_text ≤ T := by
  have hb := chunkLoop_budget tk fileName T O Htrim (3 * sentences.length + 1)
    sentences [] 0 0 1 _ (chunkSentencesInfo_eq tk sentences fileName T O)
    (usum_nil tk).symm (Nat.zero_le T) ci hci hflag
  have hr := chunkLoop_rawform tk fileName T O (3 * sentences.length + 1)
    sentences [] 0 0 1 _ (chunkSentencesInfo_eq tk sentences fileName T O) ci hci
  rw [hr]
  calc _tok_len tk (pyStrip (pyJoin " " (ci.sents.map (·.text))))
      ≤ ((ci.sents.map (·.text)).map (_tok_len tk)).sum := Hjoin _
    _ = usum tk ci.sents := by rw [usum, List.map_map]; rfl
    _ ≤ T := hb

/-- Witness for C1 at a concrete run: the whitespace word-count tokenizer,
three three-word sentences, `T = 4`, `O = 1`; the run produces three
single-sentence chunks and the first one fits the budget. -/
theorem claim1_budget_witness :
    _tok_len wordTok (((chunkSentencesInfo wordTok
        [⟨"w w w", none⟩, ⟨"w w w", none⟩, ⟨"w w w", none⟩] "f" 4 1).getD 0
        ⟨⟨0, "", "", ""⟩, false, [], 0⟩).chunk.raw_text) ≤ 4 :=
  claim1_budget wordTok wordTok_strip wordTok_join_strip
    [⟨"w w w", none⟩, ⟨"w w w", none⟩, ⟨"w w w", none⟩] "f" 4 1 (by norm_num)
    _ (by decide) (by decide)

/-- C7: the `chunk_number` fields of the result of `chunk_sentences` are
exactly `1, 2, ..., N` in emission order (as the range `[1, N]`), with no
gaps and no repeats. -/
theorem claim7_numbering {τ : Type} (tk : Tokenizer τ) (sentences : List Sentence)
    (fileName : String) (T O : Nat) :
    (chunk_sentences tk sentences fileName T O).map (·.chunk_number) =
      List.range' 1 (chunk_sentences tk sentences fileName T O).length := by
  have h := chunkLoop_numbers tk fileName T O (3 * sentences.length + 1)
    sentences [] 0 0 1 _ (chunkSentencesInfo_eq tk sentences fileName T O)
  rw [chunk_sentences, List.map_map, List.length_map]
  simpa [Function.comp] using h

/-- C8: `chunk_sentences` applied to the empty sentence sequence returns
the empty chunk sequence, as a normal result. -/
theorem claim8_empty_input {τ : Type} (tk : Tokenizer τ) (fileName : String) (T O : Nat) :
    chunk_sentences tk [] fileName T O = [] := rfl

/-- C2: for every input (any tokenizer, any `T`, any `O ≥ 0`, including
`O ≥ T`), the main loop of `chunk_sentences` terminates within
`3 * n + 1` loop steps for `n` input sentences (each unit of fuel is one
loop iteration); and when the computed overlap equals the entire
just-finalized chunk — same sentence count and same token total, as the
guard in the code states it — the overlap is discarded and the next
accumulator starts empty, so the loop makes progress. -/
theorem claim2_termination :
    (∀ {τ : Type} (tk : Tokenizer τ) (fileName : String) (T O : Nat)
      (sentences : List Sentence),
      (chunkLoop tk fileName T O (3 * sentences.length + 1) sentences [] 0 0 1).isSome) ∧
    (∀ {τ : Type} (tk : Tokenizer τ) (fileName : String) (T O fuel : Nat) (s : Sentence)
      (rest2 cur : List Sentence) (t c n : Nat),
      pyStrip s.text ≠ "" → _tok_len tk (pyStrip s.text) ≤ T → cur ≠ [] →
      T < t + _tok_len tk (pyStrip s.text) →
      (computeOverlap tk O cur).1.length = cur.length →
      (computeOverlap tk O cur).2 = t →
      chunkLoop tk fileName T O (fuel + 1) (s :: rest2) cur t c n =
        Option.map (fun l => ⟨finalize fileName cur n, false, cur, c⟩ :: l)
          (chunkLoop tk fileName T O fuel (s :: rest2) [] 0 0 (n + 1))) := by
  constructor
  · intro τ tk fileName T O sentences
    rw [chunkSentencesInfo_eq tk sentences fileName T O]
    rfl
  · intro τ tk fileName T O fuel s rest2 cur t c n h1 h2 h3 h4 hg1 hg2
    exact chunkLoop_overflow_guard tk fileName T O fuel s rest2 cur t c n h1
      (Nat.not_lt.mpr h2) h3 h4 ⟨hg1, hg2⟩

/-- Witness for C2: a concrete run over three sentences terminates within
the `3 n + 1` fuel bound, and a concrete degenerate state (the overlap
equals the whole finalized chunk) discards the overlap and retries the
same sentence with an empty accumulator. -/
theorem claim2_termination_witness :
    (chunkLoop charTok "f" 3 3 (3 * 3 + 1)
      [⟨"aaa", none⟩, ⟨"bbb", none⟩, ⟨"ccc", none⟩] [] 0 0 1).isSome ∧
    chunkLoop charTok "f" 1 0 (0 + 1) [⟨"a", none⟩] [⟨"a", none⟩] 1 0 1 =
      Option.map
        (fun l => ⟨finalize "f" [⟨"a", none⟩] 1, false, [⟨"a", none⟩], 0⟩ :: l)
        (chunkLoop charTok "f" 1 0 0 [⟨"a", none⟩] [] 0 0 2) :=
  ⟨claim2_termination.1 charTok "f" 3 3 [⟨"aaa", none⟩, ⟨"bbb", none⟩, ⟨"ccc", none⟩],
   claim2_termination.2 charTok "f" 1 0 0 ⟨"a", none⟩ [] [⟨"a", none⟩] 1 0 1
     (by decide) (by decide) (by decide) (by decide) (by decide) (by decide)⟩

/-- C3: whenever the loop finalizes a chunk because the next sentence
would overflow `T` (the sentence itself fits, the accumulator is
non-empty, and adding the sentence exceeds `T`), the seed of the next
accumulator is the overlap computed by walking the finalized chunk
backward: it is non-empty (the last sentence is always taken), it is a
contiguous suffix of the finalized chunk restored to original order, its
recorded token total is the sum of its members' token lengths, any seed
with at least two sentences stays within the overlap budget `O`, and the
loop emits the finalized chunk, keeps the input pointer on the same
sentence, and starts the next accumulator from the seed — or empty exactly
when the seed equals the whole finalized chunk (same sentence count and
same token total, as the code's degeneracy guard states it). -/
theorem claim3_overlap_seed {τ : Type} (tk : Tokenizer τ) (fileName : String)
    (T O fuel : Nat) (s : Sentence) (rest2 cur : List Sentence) (t c n : Nat)
    (h1 : pyStrip s.text ≠ "") (h2 : _tok_len tk (pyStrip s.text) ≤ T)
    (h3 : cur ≠ []) (h4 : T < t + _tok_len tk (pyStrip s.text)) :
    (computeOverlap tk O cur).1 ≠ [] ∧
    (computeOverlap tk O cur).1 <:+ cur ∧
    (computeOverlap tk O cur).2 = usum tk (computeOverlap tk O cur).1 ∧
    (2 ≤ (computeOverlap tk O cur).1.length → (computeOverlap tk O cur).2 ≤ O) ∧
    chunkLoop tk fileName T O (fuel + 1) (s :: rest2) cur t c n =
      Option.map (fun l => ⟨finalize fileName cur n, false, cur, c⟩ :: l)
        (if (computeOverlap tk O cur).1.length = cur.length ∧
            (computeOverlap tk O cur).2 = t
         then chunkLoop tk fileName T O fuel (s :: rest2) [] 0 0 (n + 1)
         else chunkLoop tk fileName T O fuel (s :: rest2) (computeOverlap tk O cur).1
           (computeOverlap tk O cur).2 (computeOverlap tk O cur).1.length (n + 1)) := by
  obtain ⟨hne, hsuf, htoks, _, hbud⟩ := computeOverlap_spec tk O cur h3
  refine ⟨hne, hsuf, htoks, hbud, ?_⟩
  by_cases hg : (computeOverlap tk O cur).1.length = cur.length ∧
      (computeOverlap tk O cur).2 = t
  · rw [if_pos hg]
    exact chunkLoop_overflow_guard tk fileName T O fuel s rest2 cur t c n h1
      (Nat.not_lt.mpr h2) h3 h4 hg
  · rw [if_neg hg]
    exact chunkLoop_overflow_noguard tk fileName T O fuel s rest2 cur t c n h1
      (Nat.not_lt.mpr h2) h3 h4 hg

/-- Witness for C3 at a concrete overflow state: character tokenizer,
finalized chunk `["aa", "bbb"]` with token total 5, overlap budget 3,
overflowing sentence `"cccc"` with `T = 6`.  The seed is the proper suffix
`["bbb"]`. -/
theorem claim3_overlap_seed_witness :
    (computeOverlap charTok 3 [⟨"aa", none⟩, ⟨"bbb", none⟩]).1 ≠ [] ∧
    (computeOverlap charTok 3 [⟨"aa", none⟩, ⟨"bbb", none⟩]).1 <:+
      [⟨"aa", none⟩, ⟨"bbb", none⟩] ∧
    (computeOverlap charTok 3 [⟨"aa", none⟩, ⟨"bbb", none⟩]).2 =
      usum charTok (computeOverlap charTok 3 [⟨"aa", none⟩, ⟨"bbb", none⟩]).1 :=
  have h := claim3_overlap_seed charTok "f" 6 3 5 ⟨"cccc", none⟩ []
    [⟨"aa", none⟩, ⟨"bbb", none⟩] 5 0 1 (by decide) (by decide) (by decide) (by decide)
  ⟨h.1, h.2.1, h.2.2.1⟩

/-- C4: the page-range formatter, described against any strictly sorted
enumeration `ps` of the set of input pages: empty set gives the empty
string; a one-element set gives that number as a decimal string; when
every adjacent pair of the sorted distinct pages differs by exactly 1, the
result is `"start-end"`; otherwise all pages are listed sorted and
comma-joined with no range compression. -/
theorem claim4_page_range (pages ps : List Int)
    (hs : List.Sorted (· < ·) ps) (hm : ∀ x : Int, x ∈ ps ↔ x ∈ pages) :
    (ps = [] → _page_range pages = "") ∧
    (∀ p, ps = [p] → _page_range pages = toString p) ∧
    (2 ≤ ps.length → List.Chain' (fun a b => a + 1 = b) ps →
      ∀ a b, ps.head? = some a → ps.getLast? = some b →
        _page_range pages = toString a ++ "-" ++ toString b) ∧
    (2 ≤ ps.length → ¬ List.Chain' (fun a b => a + 1 = b) ps →
      _page_range pages = pyJoin "," (ps.map toString)) := by
  have hsort := sortedSet_eq pages ps hs hm
  refine ⟨?_, ?_, ?_, ?_⟩
  · intro h
    subst h
    simp only [_page_range, hsort]
  · intro p h
    subst h
    simp only [_page_range, hsort]
  · intro h2 hchain a b hha hhb
    match ps, hsort, h2, hchain, hha, hhb with
    | p :: q :: rest, hsort, h2, hchain, hha, hhb =>
      have ha2 : a = p := by
        have hpa : p = a := by simpa using hha
        exact hpa.symm
      have hb2 : b = (p :: q :: rest).getLast (by simp) := by
        have : (p :: q :: rest).getLast? = some ((p :: q :: rest).getLast (by simp)) := rfl
        rw [this] at hhb
        exact (Option.some_inj.mp hhb).symm
      subst ha2
      subst hb2
      simp only [_page_range, hsort]
      rw [if_pos hchain]
  · intro h2 hchain
    match ps, hsort, h2, hchain with
    | p :: q :: rest, hsort, h2, hchain =>
      simp only [_page_range, hsort]
      rw [if_neg hchain]

/-- Witness for C4 on the concrete page sets of the spec: `{5}`, `{3,4,5}`,
`{1,2,5}`, the empty set, and the two contiguous runs with a gap
`{1,2,3,7,8,9}`, which are listed individually rather than compressed. -/
theorem claim4_page_range_witness :
    _page_range [] = "" ∧
    _page_range [5] = "5" ∧
    _page_range [3, 4, 5] = "3-5" ∧
    _page_range [1, 2, 5] = "1,2,5" ∧
    _page_range [1, 2, 3, 7, 8, 9] = "1,2,3,7,8,9" := by
  refine ⟨?_, ?_, ?_, ?_, ?_⟩
  · exact (claim4_page_range [] [] (by decide) (fun x => Iff.rfl)).1 rfl
  · exact (claim4_page_range [5] [5] (by decide) (fun x => Iff.rfl)).2.1 5 rfl
  · have h := (claim4_page_range [3, 4, 5] [3, 4, 5] (by decide)
      (fun x => Iff.rfl)).2.2.1 (by norm_num)
      (by norm_num [List.chain'_cons, List.chain'_singleton]) 3 5 rfl rfl
    simpa using h
  · have h := (claim4_page_range [1, 2, 5] [1, 2, 5] (by decide)
      (fun x => Iff.rfl)).2.2.2 (by norm_num)
      (by norm_num [List.chain'_cons, List.chain'_singleton])
    simpa using h
  · have h := (claim4_page_range [1, 2, 3, 7, 8, 9] [1, 2, 3, 7, 8, 9] (by decide)
      (fun x => Iff.rfl)).2.2.2 (by norm_num)
      (by norm_num [List.chain'_cons, List.chain'_singleton])
    simpa using h

/-- C5: the oversized-sentence splitter.  First part: for any tokenizer
whose decode-then-strip never increases the token count of a window, a
text whose token length exceeds `T` is split into pieces of token length
at most `T` (each piece is a decoded window of at most `T` tokens).
Second part, the concrete case: a 5000-token text with `T = 2000`,
`O = 200` produces exactly the three pieces decoded from the windows
`[0:2000)`, `[1800:3800)`, `[3600:5000)` (start offsets advancing by
`step = 1800`), provided the decoded, stripped windows are non-empty. -/
theorem claim5_splitter :
    (∀ {τ : Type} (tk : Tokenizer τ) (text : String) (T O : Nat),
      (∀ w : List τ, _tok_len tk (pyStrip (tk.decode w)) ≤ w.length) →
      T < _tok_len tk text →
      ∀ p ∈ _split_text_by_tokens tk text T O, _tok_len tk p ≤ T) ∧
    (∀ {τ : Type} (tk : Tokenizer τ) (text : String),
      (tk.encode text).length = 5000 →
      pyStrip (tk.decode ((tk.encode text).take 2000)) ≠ "" →
      pyStrip (tk.decode (((tk.encode text).drop 1800).take 2000)) ≠ "" →
      pyStrip (tk.decode (((tk.encode text).drop 3600).take 1400)) ≠ "" →
      _split_text_by_tokens tk text 2000 200 =
        [pyStrip (tk.decode ((tk.encode text).take 2000)),
         pyStrip (tk.decode (((tk.encode text).drop 1800).take 2000)),
         pyStrip (tk.decode (((tk.encode text).drop 3600).take 1400))]) := by
  constructor
  · intro τ tk text T O Hrt hbig p hp
    rw [_split_text_by_tokens] at hp
    by_cases hle : (tk.encode text).length ≤ T
    · exact absurd hbig (by rw [_tok_len]; omega)
    · rw [if_neg hle] at hp
      obtain ⟨w, hw, rfl⟩ := splitLoop_mem tk (tk.encode text) T _ _ 0 p hp
      calc _tok_len tk (pyStrip (tk.decode w)) ≤ w.length := Hrt w
        _ ≤ T := hw
  · intro τ tk text h hp1 hp2 hp3
    exact split_text_5000 tk text h hp1 hp2 hp3

/-- Witness for C5: the character tokenizer.  Part one at the five-token
text `"abcde"` with `T = 2, O = 1` and its first emitted piece; part two
at a 5000-character text, whose windows are all runs of `'a'`. -/
theorem claim5_splitter_witness :
    (_tok_len charTok ((_split_text_by_tokens charTok "abcde" 2 1).getD 0 "") ≤ 2) ∧
    _split_text_by_tokens charTok (String.mk (List.replicate 5000 'a')) 2000 200 =
      [pyStrip (charTok.decode ((charTok.encode (String.mk (List.replicate 5000 'a'))).take 2000)),
       pyStrip (charTok.decode
         (((charTok.encode (String.mk (List.replicate 5000 'a'))).drop 1800).take 2000)),
       pyStrip (charTok.decode
         (((charTok.encode (String.mk (List.replicate 5000 'a'))).drop 3600).take 1400))] := by
  constructor
  · exact claim5_splitter.1 charTok "abcde" 2 1 charTok_roundtrip (by decide) _ (by decide)
  · have henc : charTok.encode (String.mk (List.replicate 5000 'a')) =
        List.replicate 5000 'a' := rfl
    refine claim5_splitter.2 charTok (String.mk (List.replicate 5000 'a')) ?_ ?_ ?_ ?_
    · rw [henc, List.length_replicate]
    · rw [henc, List.take_replicate]
      norm_num
      exact pyStrip_replicate_ne_empty 'a' (by decide) 2000 (by norm_num)
    · rw [henc, List.drop_replicate, List.take_replicate]
      norm_num
      exact pyStrip_replicate_ne_empty 'a' (by decide) 2000 (by norm_num)
    · rw [henc, List.drop_replicate, List.take_replicate]
      norm_num
      exact pyStrip_replicate_ne_empty 'a' (by decide) 1400 (by norm_num)

/-- Counterexample to C6 as stated: a single 5-token sentence `"abcde"`
(character tokenizer) with `T = 2`, `O = 1` is routed through the
oversized-sentence splitter, which emits overlapping windows `"ab"`,
`"bc"`, `"cd"`, `"de"`.  No way of removing whole emitted units (no
sublist of the produced `raw_text`s) concatenates back to `"abcde"`,
either directly or space-joined, so the original text is not
reconstructible from the chunks by removing duplicated sentences. -/
theorem claim6_coverage_counterexample :
    (chunk_sentences charTok [⟨"abcde", none⟩] "f" 2 1).map (·.raw_text) =
      ["ab", "bc", "cd", "de"] ∧
    ((["ab", "bc", "cd", "de"] : List String).sublists.all
      (fun sub => !(String.join sub == "abcde") && !(pyJoin " " sub == "abcde"))) = true := by
  constructor
  · decide
  · decide

/-- C6 amended: for sentence sequences in which no sentence exceeds the
token budget (so the oversized-sentence splitter is never used), the
chunks' constituent sentence lists, after dropping from each chunk the
prefix of sentences carried over as overlap from the previous chunk,
concatenate to exactly the input sentences with non-empty trimmed text;
and each chunk's `raw_text` is the stripped space-join of its constituent
sentences' texts, so the chunk texts reconstruct the original sequence up
to the whitespace normalization that `finalize` itself performs. -/
theorem claim6_coverage_amended {τ : Type} (tk : Tokenizer τ) (sentences : List Sentence)
    (fileName : String) (T O : Nat)
    (Hsize : ∀ s ∈ sentences, _tok_len tk (pyStrip s.text) ≤ T) :
    ((chunkSentencesInfo tk sentences fileName T O).flatMap
        (fun ci => ci.sents.drop ci.carried)) =
      sentences.filter (fun s => !(pyStrip s.text == "")) ∧
    ∀ ci ∈ chunkSentencesInfo tk sentences fileName T O,
      ci.chunk.raw_text = pyStrip (pyJoin " " (ci.sents.map (·.text))) := by
  constructor
  · have h := chunkLoop_coverage tk fileName T O (3 * sentences.length + 1)
      sentences [] 0 0 1 _ (chunkSentencesInfo_eq tk sentences fileName T O)
      (by simp) Hsize
    simpa using h
  · intro ci hci
    exact chunkLoop_rawform tk fileName T O (3 * sentences.length + 1)
      sentences [] 0 0 1 _ (chunkSentencesInfo_eq tk sentences fileName T O) ci hci

/-- Witness for the amended C6 at a concrete run with an overlap-carried
chunk: after dropping each chunk's carried prefix, the constituent
sentences are exactly the input sequence. -/
theorem claim6_coverage_amended_witness :
    ((chunkSentencesInfo charTok [⟨"aa", none⟩, ⟨"bbb", none⟩, ⟨"cccc", none⟩] "f" 6 3).flatMap
        (fun ci => ci.sents.drop ci.carried)) =
      ([⟨"aa", none⟩, ⟨"bbb", none⟩, ⟨"cccc", none⟩] : List Sentence).filter
        (fun s => !(pyStrip s.text == "")) :=
  (claim6_coverage_amended charTok [⟨"aa", none⟩, ⟨"bbb", none⟩, ⟨"cccc", none⟩]
    "f" 6 3 (by decide)).1

/-- C9: end-to-end scenario.  Sentences `"A."`, `"B."`, `"C."` with no
page information, the default budgets `T = 2000`, `O = 200` (amply large
enough for all three), file name `"doc"`: exactly one chunk, numbered 1,
with page label `"1"` (the chunk-number fallback), raw text
`"A. B. C."` and embedded text `"doc\n\nA. B. C."`.  The character
tokenizer stands in for the external encoding. -/
theorem claim9_end_to_end :
    chunk_sentences charTok [⟨"A.", none⟩, ⟨"B.", none⟩, ⟨"C.", none⟩] "doc" 2000 200 =
      [⟨1, "1", "doc\n\nA. B. C.", "A. B. C."⟩] := by
  decide

/-- C10: a chunk can consist entirely of overlap carried over from the
previous chunk.  Concrete run (character tokenizer, `T = 6`, `O = 3`, so
`0 < O < T`): sentences `"aa"`, `"bbb"`, `"cccc"`.  The first chunk is
`"aa bbb"`; the overlap seed `["bbb"]` is a proper suffix; the next
sentence `"cccc"` still does not fit, so the seed alone is finalized as
the second chunk, whose carried count equals its whole sentence count —
it contains no new sentence, and the text `"bbb"` appears verbatim in two
consecutive chunks. -/
theorem claim10_overlap_only_chunk :
    (chunkSentencesInfo charTok [⟨"aa", none⟩, ⟨"bbb", none⟩, ⟨"cccc", none⟩] "f" 6 3).map
        (fun ci => (ci.chunk.raw_text, ci.carried, ci.sents.length)) =
      [("aa bbb", 0, 2), ("bbb", 1, 1), ("cccc", 0, 1)] := by
  decide
